import Mathlib

/-!
Verification of the README cleaning heuristic of
`scripts/fetch_terraform_readmes.py`.

A Python string is modelled as a `List Char`; each helper of the script is
translated into an executable Lean definition of the same name.  Whitespace
(`str.strip`, the regex class `\s`) is modelled by the ASCII whitespace
characters, `str.lower` by `Char.toLower`, and the regex word class `\w`
(used for the `\b` boundary in `^##\s+usage\b`) by ASCII letters, digits and
underscore.
-/

/-- Whitespace characters stripped by Python's `str.strip()` (ASCII range). -/
def pyIsSpace (c : Char) : Bool :=
  c == ' ' || c == '\t' || c == '\n' || c == '\r' || c == '\x0b' || c == '\x0c'

/-- Python `str.lstrip()`. -/
def lstrip (l : List Char) : List Char := l.dropWhile pyIsSpace

/-- Python `str.rstrip()`. -/
def rstrip (l : List Char) : List Char := (l.reverse.dropWhile pyIsSpace).reverse

/-- Python `str.strip()`. -/
def strip (l : List Char) : List Char := lstrip (rstrip l)

/-- Python `str.lower()` (ASCII model). -/
def lowerList (l : List Char) : List Char := l.map Char.toLower

/-- Characters of the regex class `\w` (ASCII model), for the `\b` boundary. -/
def isWordChar (c : Char) : Bool := c.isAlpha || c.isDigit || c == '_'

/-- Splitting a string on `'\n'`, as Python's `"...".split("\n")`:
`splitNL []` is `[[]]`, and every `'\n'` separates two (possibly empty)
fields. -/
def splitNL : List Char → List (List Char)
  | [] => [[]]
  | c :: r =>
    if c = '\n' then [] :: splitNL r
    else (c :: (splitNL r).headD []) :: (splitNL r).tail

/-- Joining lines with `'\n'`, as Python's `"\n".join(lines)`. -/
def joinNL : List (List Char) → List Char
  | [] => []
  | [l] => l
  | l :: ls => l ++ '\n' :: joinNL ls

/-- Python `text.replace("\r\n", "\n")` (left-to-right, non-overlapping). -/
def replaceCRLF : List Char → List Char
  | [] => []
  | [c] => [c]
  | c₁ :: c₂ :: r =>
    if c₁ == '\r' && c₂ == '\n' then '\n' :: replaceCRLF r
    else c₁ :: replaceCRLF (c₂ :: r)

/-- Python `text.replace("\r", "\n")`. -/
def replaceCR (l : List Char) : List Char :=
  l.map (fun c => if c == '\r' then '\n' else c)

/-- The newline normalization performed on entry to `clean_readme`:
`markdown_text.replace("\r\n", "\n").replace("\r", "\n")`. -/
def normalizeNewlines (l : List Char) : List Char := replaceCR (replaceCRLF l)

/-- Python's substring test `pat in s`. -/
def containsSub (pat s : List Char) : Bool := decide (pat <:+: s)

/-- `is_badge_or_banner_line` from the script. -/
def is_badge_or_banner_line (line : List Char) : Bool :=
  let stripped := strip line
  if stripped.isEmpty then false
  else if "[![".data.isPrefixOf stripped || "![".data.isPrefixOf stripped then true
  else if containsSub "shields.io".data stripped then true
  else if containsSub "badge".data (lowerList stripped) &&
      (containsSub "http://".data stripped ||
       containsSub "https://".data stripped) then true
  else false

/-- Matching of `usage\b` (case-insensitive) at the head of the given
characters: the word `usage`, then either end of string or a non-word
character. -/
def matchUsageWord : List Char → Bool
  | c₁ :: c₂ :: c₃ :: c₄ :: c₅ :: rest =>
    Char.toLower c₁ == 'u' && Char.toLower c₂ == 's' && Char.toLower c₃ == 'a' &&
    Char.toLower c₄ == 'g' && Char.toLower c₅ == 'e' &&
    (match rest with
     | [] => true
     | c :: _ => !isWordChar c)
  | _ => false

/-- The regex `^##\s+usage\b` with `re.IGNORECASE`, i.e. the compiled
`usage_heading` pattern of `find_content_start` (also used in the body
filter of `clean_readme`). -/
def matchUsage (l : List Char) : Bool :=
  match l with
  | '#' :: '#' :: rest =>
    !(rest.takeWhile pyIsSpace).isEmpty && matchUsageWord (rest.dropWhile pyIsSpace)
  | _ => false

/-- The regex `^##+\s+` of `find_content_end` (a heading of level at least
two, marker followed by whitespace). -/
def isHeading2Plus : List Char → Bool
  | '#' :: '#' :: rest =>
    match rest.dropWhile (fun c => c == '#') with
    | [] => false
    | c :: _ => pyIsSpace c
  | _ => false

/-- The substitution `re.sub(r"^#{1,6}\s*", "", line)` of
`normalize_heading_title`: at most six leading `#` characters and the
whitespace after them are removed (nothing is removed when the line does not
start with `#`). -/
def stripHeadingMarker (l : List Char) : List Char :=
  let hs := (l.takeWhile (fun c => c == '#')).length
  if hs == 0 then l else (l.drop (Nat.min hs 6)).dropWhile pyIsSpace

/-- The substitution `re.sub(r"\s+", " ", title)`: every maximal whitespace
run is replaced by a single space.  The boolean records whether the previous
character was part of a whitespace run. -/
def collapseWsAux : Bool → List Char → List Char
  | _, [] => []
  | prevSpace, c :: r =>
    if pyIsSpace c then
      if prevSpace then collapseWsAux true r else ' ' :: collapseWsAux true r
    else c :: collapseWsAux false r

/-- `normalize_heading_title` from the script. -/
def normalize_heading_title (l : List Char) : List Char :=
  collapseWsAux false (lowerList (strip (stripHeadingMarker l)))

/-- The `FOOTER_TITLES` constant of the script. -/
def FOOTER_TITLES : List (List Char) :=
  ["authors".data, "author".data, "license".data, "maintainers".data,
   "maintainer".data, "contributing".data, "contribution".data,
   "support".data, "changelog".data, "additional information".data,
   "security".data]

/-- One line of `find_first_title`'s loop: `line.strip().startswith("# ")`. -/
def isTitleLine (l : List Char) : Bool := "# ".data.isPrefixOf (strip l)

/-- One line of the first loop of `find_content_start`:
`usage_heading.match(line.strip())`. -/
def isUsageLine (l : List Char) : Bool := matchUsage (strip l)

/-- One line of the second loop of `find_content_start`:
`line.strip().startswith("### ")`. -/
def isH3Line (l : List Char) : Bool := "### ".data.isPrefixOf (strip l)

/-- The body of `find_content_end`'s loop: a stripped line that is non-empty,
matches `^##+\s+`, and whose normalized title is in `FOOTER_TITLES`. -/
def isFooterStop (line : List Char) : Bool :=
  let s := strip line
  !s.isEmpty && isHeading2Plus s && FOOTER_TITLES.contains (normalize_heading_title s)

/-- Index of the first element satisfying `p` (the `for`/`enumerate` search
pattern used by the script's scanning loops). -/
def firstIdx {α : Type} (p : α → Bool) : List α → Option Nat
  | [] => none
  | a :: t => if p a then some 0 else (firstIdx p t).map (· + 1)

/-- `find_first_title` from the script. -/
def find_first_title (lines : List (List Char)) : Option Nat :=
  firstIdx isTitleLine lines

/-- `find_content_start` from the script. -/
def find_content_start (lines : List (List Char)) (title_index : Option Nat) : Nat :=
  match firstIdx isUsageLine lines with
  | some i => i + 1
  | none =>
    match firstIdx isH3Line lines with
    | some i => i
    | none =>
      match title_index with
      | some t => t + 1
      | none => 0

/-- `find_content_end` from the script. -/
def find_content_end (lines : List (List Char)) (start : Nat) : Nat :=
  match firstIdx isFooterStop (lines.drop start) with
  | some j => start + j
  | none => lines.length

/-- The loop of `compact_blank_lines`: the boolean tells whether the previous
line was blank (`blank_run >= 1`); a blank line is kept as `""` only when it
starts a blank run, a non-blank line is kept right-trimmed. -/
def compactAux : Bool → List (List Char) → List (List Char)
  | _, [] => []
  | prevBlank, l :: t =>
    if (strip l).isEmpty then
      if prevBlank then compactAux true t
      else [] :: compactAux true t
    else rstrip l :: compactAux false t

/-- `compact_blank_lines` from the script: the loop above followed by the
two `while ... pop` trims of leading and trailing empty entries. -/
def compact_blank_lines (lines : List (List Char)) : List (List Char) :=
  (((compactAux false lines).dropWhile List.isEmpty).reverse.dropWhile
      List.isEmpty).reverse

/-- The candidate test of the title-paragraph lookahead in `clean_readme`:
not blank, not a heading, not a badge or banner line. -/
def paraQualifies (l : List Char) : Bool :=
  let stripped := strip l
  !stripped.isEmpty && !("#".data.isPrefixOf stripped) &&
    !(is_badge_or_banner_line stripped)

/-- The `title_block` built by `clean_readme`: the first `# ` line
right-trimmed, then (searching the 11 lines after it) at most one qualifying
paragraph line, separated by one blank entry. -/
def title_block_of (lines : List (List Char)) : List (List Char) :=
  match find_first_title lines with
  | none => []
  | some t =>
    let window := (lines.drop (t + 1)).take 11
    match firstIdx paraQualifies window with
    | none => [rstrip (lines.getD t [])]
    | some j => [rstrip (lines.getD t []), [], rstrip (window.getD j [])]

/-- The pair `(start, end)` computed by `clean_readme` via
`find_content_start` and `find_content_end`. -/
def content_bounds_of (lines : List (List Char)) : Nat × Nat :=
  let start := find_content_start lines (find_first_title lines)
  (start, find_content_end lines start)

/-- The slice `lines[start:end]` taken by `clean_readme`. -/
def body_lines_of (lines : List (List Char)) : List (List Char) :=
  let b := content_bounds_of lines
  (lines.drop b.1).take (b.2 - b.1)

/-- The body filter of `clean_readme`: drop badge/banner lines and
`## usage` headings, right-trim every kept line. -/
def keepBodyLine (l : List Char) : Option (List Char) :=
  let stripped := strip l
  if is_badge_or_banner_line stripped then none
  else if matchUsage stripped then none
  else some (rstrip l)

/-- The `filtered_body` list built by `clean_readme`. -/
def filtered_body_of (lines : List (List Char)) : List (List Char) :=
  (body_lines_of lines).filterMap keepBodyLine

/-- The `output_lines` of `clean_readme`:
`compact_blank_lines(title_block + [""] + filtered_body if title_block else
filtered_body)`. -/
def output_lines_of (lines : List (List Char)) : List (List Char) :=
  let tb := title_block_of lines
  compact_blank_lines
    (if tb.isEmpty then filtered_body_of lines
     else tb ++ [[]] ++ filtered_body_of lines)

/-- `clean_readme` from the script. -/
def clean_readme (markdown_text : List Char) : List Char :=
  joinNL (output_lines_of (splitNL (normalizeNewlines markdown_text))) ++ ['\n']

/-- No two adjacent entries of the line list are both empty (the shape of a
blank-line-compacted document). -/
def noAdjBlank : List (List Char) → Bool
  | [] => true
  | [_] => true
  | a :: b :: t => !(a.isEmpty && b.isEmpty) && noAdjBlank (b :: t)

/-! ### Lemmas about the string primitives -/

theorem dropWhile_dropWhile {α : Type} (p : α → Bool) (l : List α) :
    (l.dropWhile p).dropWhile p = l.dropWhile p := by
  induction l with
  | nil => rfl
  | cons a t ih =>
    by_cases h : p a = true
    · simp [List.dropWhile_cons, h, ih]
    · simp [List.dropWhile_cons, h]

theorem rstrip_idem (l : List Char) : rstrip (rstrip l) = rstrip l := by
  simp [rstrip, dropWhile_dropWhile]

theorem lstrip_idem (l : List Char) : lstrip (lstrip l) = lstrip l := by
  simp [lstrip, dropWhile_dropWhile]

theorem strip_eq_nil_of_rstrip (l : List Char) (h : rstrip l = []) :
    strip l = [] := by
  simp [strip, h, lstrip]

theorem dropWhile_self_of_append {α : Type} (p : α → Bool) (A B : List α)
    (hA : A ≠ []) (h : (A ++ B).dropWhile p = A ++ B) :
    A.dropWhile p = A := by
  obtain ⟨a, A', rfl⟩ := List.exists_cons_of_ne_nil hA
  by_cases hp : p a = true
  · exfalso
    rw [List.cons_append, List.dropWhile_cons, if_pos hp] at h
    have hlen := (List.dropWhile_sublist (l := A' ++ B) p).length_le
    rw [h] at hlen
    simp at hlen
  · simp [List.dropWhile_cons, hp]

theorem rstrip_fixed_iff (l : List Char) :
    rstrip l = l ↔ l.reverse.dropWhile pyIsSpace = l.reverse := by
  constructor
  · intro h
    have : (rstrip l).reverse = l.reverse := by rw [h]
    simpa [rstrip] using this
  · intro h
    simp [rstrip, h]

theorem rstrip_lstrip_of_fixed (l : List Char) (h : rstrip l = l) :
    rstrip (lstrip l) = lstrip l := by
  rcases eq_or_ne (lstrip l) [] with hnil | hne
  · rw [hnil]; rfl
  · rw [rstrip_fixed_iff]
    have hdecomp : l.takeWhile pyIsSpace ++ l.dropWhile pyIsSpace = l :=
      List.takeWhile_append_dropWhile pyIsSpace l
    have hrev : (lstrip l).reverse ++ (l.takeWhile pyIsSpace).reverse = l.reverse := by
      rw [← List.reverse_append]
      unfold lstrip
      rw [hdecomp]
    have hfix : l.reverse.dropWhile pyIsSpace = l.reverse := (rstrip_fixed_iff l).1 h
    rw [← hrev] at hfix
    have hAne : (lstrip l).reverse ≠ [] := by
      simpa using hne
    exact dropWhile_self_of_append pyIsSpace _ _ hAne hfix

theorem rstrip_strip (l : List Char) : rstrip (strip l) = strip l := by
  unfold strip
  exact rstrip_lstrip_of_fixed (rstrip l) (rstrip_idem l)

theorem strip_strip (l : List Char) : strip (strip l) = strip l := by
  have h1 : strip (strip l) = lstrip (rstrip (strip l)) := rfl
  rw [h1, rstrip_strip]
  show lstrip (lstrip (rstrip l)) = lstrip (rstrip l)
  exact lstrip_idem _

theorem strip_rstrip (l : List Char) : strip (rstrip l) = strip l := by
  simp [strip, rstrip_idem]

theorem mem_rstrip {c : Char} {l : List Char} (h : c ∈ rstrip l) : c ∈ l := by
  rw [rstrip, List.mem_reverse] at h
  exact List.mem_reverse.mp ((List.dropWhile_sublist pyIsSpace).mem h)

theorem not_mem_rstrip {c : Char} {l : List Char} (h : c ∉ l) : c ∉ rstrip l :=
  fun hc => h (mem_rstrip hc)

theorem rstrip_ne_nil_of_strip {l : List Char} (h : ¬(strip l).isEmpty = true) :
    rstrip l ≠ [] := by
  intro hnil
  exact h (by simp [strip_eq_nil_of_rstrip l hnil])

theorem rstrip_nil_eq : rstrip [] = [] := rfl

/-! ### Lemmas about line splitting and joining -/

theorem splitNL_ne_nil (s : List Char) : splitNL s ≠ [] := by
  cases s with
  | nil => simp [splitNL]
  | cons c r =>
    simp only [splitNL]
    split <;> simp

theorem splitNL_no_nl (s : List Char) : ∀ l ∈ splitNL s, '\n' ∉ l := by
  induction s with
  | nil =>
    intro l hl
    simp [splitNL] at hl
    simp [hl]
  | cons c r ih =>
    intro l hl
    simp only [splitNL] at hl
    by_cases hc : c = '\n'
    · rw [if_pos hc] at hl
      rcases List.mem_cons.mp hl with h | h
      · simp [h]
      · exact ih l h
    · rw [if_neg hc] at hl
      obtain ⟨h, t, he⟩ := List.exists_cons_of_ne_nil (splitNL_ne_nil r)
      rw [he] at hl
      simp only [List.headD_cons, List.tail_cons] at hl
      rcases List.mem_cons.mp hl with h1 | h1
      · subst h1
        intro hmem
        rcases List.mem_cons.mp hmem with h2 | h2
        · exact hc h2.symm
        · exact ih h (he ▸ List.mem_cons_self h t) h2
      · exact ih l (he ▸ List.mem_cons_of_mem h h1)

theorem splitNL_chars (s : List Char) :
    ∀ l ∈ splitNL s, ∀ c ∈ l, c ∈ s := by
  induction s with
  | nil =>
    intro l hl c hc
    simp [splitNL] at hl
    subst hl
    simp at hc
  | cons a r ih =>
    intro l hl c hc
    simp only [splitNL] at hl
    by_cases ha : a = '\n'
    · rw [if_pos ha] at hl
      rcases List.mem_cons.mp hl with h | h
      · subst h; simp at hc
      · exact List.mem_cons_of_mem a (ih l h c hc)
    · rw [if_neg ha] at hl
      obtain ⟨h, t, he⟩ := List.exists_cons_of_ne_nil (splitNL_ne_nil r)
      rw [he] at hl
      simp only [List.headD_cons, List.tail_cons] at hl
      rcases List.mem_cons.mp hl with h1 | h1
      · subst h1
        rcases List.mem_cons.mp hc with h2 | h2
        · simp [h2]
        · exact List.mem_cons_of_mem a (ih h (he ▸ List.mem_cons_self h t) c h2)
      · exact List.mem_cons_of_mem a (ih l (he ▸ List.mem_cons_of_mem h h1) c hc)

theorem splitNL_append_nl (L : List Char) (r : List Char) (hL : '\n' ∉ L) :
    splitNL (L ++ '\n' :: r) = L :: splitNL r := by
  induction L with
  | nil => simp [splitNL]
  | cons c L' ih =>
    have hc : c ≠ '\n' := fun h => hL (h ▸ List.mem_cons_self c L')
    have hL' : '\n' ∉ L' := fun h => hL (List.mem_cons_of_mem c h)
    simp only [List.cons_append, splitNL, List.append_eq]
    rw [if_neg hc, ih hL']
    simp

theorem splitNL_join_roundtrip (c : List (List Char)) (hne : c ≠ [])
    (hnl : ∀ l ∈ c, '\n' ∉ l) :
    splitNL (joinNL c ++ ['\n']) = c ++ [[]] := by
  induction c with
  | nil => exact absurd rfl hne
  | cons l t ih =>
    cases t with
    | nil =>
      have hl : '\n' ∉ l := hnl l (List.mem_cons_self l [])
      show splitNL (joinNL [l] ++ ['\n']) = [l, []]
      have : joinNL [l] ++ ['\n'] = l ++ '\n' :: [] := by simp [joinNL]
      rw [this, splitNL_append_nl l [] hl]
      rfl
    | cons h t' =>
      have hl : '\n' ∉ l := hnl l (List.mem_cons_self l _)
      have hrest : ∀ x ∈ h :: t', '\n' ∉ x := fun x hx =>
        hnl x (List.mem_cons_of_mem l hx)
      have hjoin : joinNL (l :: h :: t') ++ ['\n'] =
          l ++ '\n' :: (joinNL (h :: t') ++ ['\n']) := by
        show (l ++ '\n' :: joinNL (h :: t')) ++ ['\n'] = _
        simp
      rw [hjoin, splitNL_append_nl l _ hl, ih (by simp) hrest]
      rfl

theorem mem_joinNL {c : Char} {ls : List (List Char)} (h : c ∈ joinNL ls) :
    c = '\n' ∨ ∃ l ∈ ls, c ∈ l := by
  induction ls with
  | nil => simp [joinNL] at h
  | cons l t ih =>
    cases t with
    | nil =>
      right
      exact ⟨l, List.mem_cons_self l [], h⟩
    | cons h' t' =>
      have : c ∈ l ++ '\n' :: joinNL (h' :: t') := h
      rcases List.mem_append.mp this with h1 | h1
      · right; exact ⟨l, List.mem_cons_self l _, h1⟩
      · rcases List.mem_cons.mp h1 with h2 | h2
        · left; exact h2
        · rcases ih h2 with h3 | ⟨x, hx, hcx⟩
          · left; exact h3
          · right; exact ⟨x, List.mem_cons_of_mem l hx, hcx⟩

theorem joinNL_getLast? (ls : List (List Char)) (L : List Char)
    (hlast : ls.getLast? = some L) (hLne : L ≠ []) :
    (joinNL ls).getLast? = L.getLast? := by
  induction ls with
  | nil => simp at hlast
  | cons l t ih =>
    cases t with
    | nil =>
      simp only [List.getLast?_singleton] at hlast
      cases hlast
      rfl
    | cons h t' =>
      rw [List.getLast?_cons_cons] at hlast
      have hrec := ih hlast
      have hjne : joinNL (h :: t') ≠ [] := by
        intro hj
        rw [hj] at hrec
        have hnone : L.getLast? = none := by simpa using hrec.symm
        exact hLne (List.getLast?_eq_none_iff.mp hnone)
      have hjoin : joinNL (l :: h :: t') = l ++ '\n' :: joinNL (h :: t') := rfl
      rw [hjoin, List.getLast?_append]
      obtain ⟨a, t'', he⟩ := List.exists_cons_of_ne_nil hjne
      rw [he, List.getLast?_cons_cons, ← he, hrec]
      obtain ⟨b, hb⟩ : ∃ b, L.getLast? = some b := by
        cases hLget : L.getLast? with
        | none => exact absurd (List.getLast?_eq_none_iff.mp hLget) hLne
        | some b => exact ⟨b, rfl⟩
      rw [hb]
      rfl

/-! ### Lemmas about newline normalization -/

theorem replaceCR_no_cr (l : List Char) : '\r' ∉ replaceCR l := by
  intro h
  rw [replaceCR, List.mem_map] at h
  obtain ⟨a, _, ha⟩ := h
  by_cases hc : a == '\r'
  · rw [if_pos hc] at ha
    exact absurd ha (by decide)
  · rw [if_neg hc] at ha
    rw [ha] at hc
    simp at hc

theorem normalizeNewlines_no_cr (s : List Char) : '\r' ∉ normalizeNewlines s :=
  replaceCR_no_cr _

theorem replaceCRLF_fixed (l : List Char) (h : '\r' ∉ l) : replaceCRLF l = l := by
  induction l with
  | nil => rfl
  | cons c r ih =>
    cases r with
    | nil => rfl
    | cons c₂ r' =>
      have hc : ¬(c == '\r' && c₂ == '\n') = true := by
        intro hb
        have : c = '\r' := by
          have := (Bool.and_eq_true _ _).mp hb
          exact eq_of_beq this.1
        exact h (this ▸ List.mem_cons_self c _)
      show (if (c == '\r' && c₂ == '\n') = true then _ else
          c :: replaceCRLF (c₂ :: r')) = c :: c₂ :: r'
      rw [if_neg hc, ih (fun hm => h (List.mem_cons_of_mem c hm))]

theorem replaceCR_fixed (l : List Char) (h : '\r' ∉ l) : replaceCR l = l := by
  rw [replaceCR]
  conv_rhs => rw [← List.map_id l]
  apply List.map_congr_left
  intro a ha
  have : ¬a == '\r' := by
    intro hb
    exact h (eq_of_beq hb ▸ ha)
  simp [this]

theorem normalizeNewlines_fixed (s : List Char) (h : '\r' ∉ s) :
    normalizeNewlines s = s := by
  rw [normalizeNewlines, replaceCRLF_fixed s h, replaceCR_fixed s h]

theorem normalizeNewlines_idem (s : List Char) :
    normalizeNewlines (normalizeNewlines s) = normalizeNewlines s :=
  normalizeNewlines_fixed _ (normalizeNewlines_no_cr s)

/-! ### Lemmas about the first-index search -/

theorem firstIdx_eq_none_iff {α : Type} (p : α → Bool) (ls : List α) :
    firstIdx p ls = none ↔ ∀ l ∈ ls, p l = false := by
  induction ls with
  | nil => simp [firstIdx]
  | cons a t ih =>
    by_cases h : p a = true
    · simp [firstIdx, h]
    · simp only [firstIdx, if_neg h, Option.map_eq_none', ih, List.mem_cons]
      constructor
      · intro hall l hl
        rcases hl with rfl | hl
        · exact Bool.eq_false_iff.mpr h
        · exact hall l hl
      · intro hall l hl
        exact hall l (Or.inr hl)

theorem firstIdx_eq_some {α : Type} (p : α → Bool) (ls : List α) (i : Nat)
    (d : α) (h : firstIdx p ls = some i) :
    i < ls.length ∧ p (ls.getD i d) = true ∧
      ∀ j, j < i → p (ls.getD j d) = false := by
  induction ls generalizing i with
  | nil => simp [firstIdx] at h
  | cons a t ih =>
    by_cases ha : p a = true
    · rw [firstIdx, if_pos ha] at h
      cases h
      exact ⟨Nat.succ_pos _, by simpa using ha, fun j hj => absurd hj (Nat.not_lt_zero j)⟩
    · rw [firstIdx, if_neg ha] at h
      rcases Option.map_eq_some'.mp h with ⟨i', hi', rfl⟩
      obtain ⟨hlen, hp, hmin⟩ := ih i' hi'
      refine ⟨Nat.succ_lt_succ hlen, by simpa using hp, ?_⟩
      intro j hj
      cases j with
      | zero => simpa using Bool.eq_false_iff.mpr ha
      | succ j' =>
        rw [List.getD_cons_succ]
        exact hmin j' (Nat.lt_of_succ_lt_succ hj)

theorem firstIdx_eq_none_of {α : Type} (p : α → Bool) (ls : List α)
    (h : ∀ l ∈ ls, p l = false) : firstIdx p ls = none :=
  (firstIdx_eq_none_iff p ls).mpr h

theorem getD_mem {α : Type} (ls : List α) (i : Nat) (d : α)
    (h : i < ls.length) : ls.getD i d ∈ ls := by
  induction ls generalizing i with
  | nil => simp at h
  | cons a t ih =>
    cases i with
    | zero => simp
    | succ i' =>
      rw [List.getD_cons_succ]
      exact List.mem_cons_of_mem a (ih i' (Nat.lt_of_succ_lt_succ h))

/-! ### Lemmas about blank-line compaction -/

theorem noAdjBlank_of_cons {a : List Char} {t : List (List Char)}
    (h : noAdjBlank (a :: t) = true) : noAdjBlank t = true := by
  cases t with
  | nil => rfl
  | cons b t' =>
    rw [noAdjBlank] at h
    exact (Bool.and_eq_true _ _).mp h |>.2

theorem noAdjBlank_cons_head {a : List Char} {t : List (List Char)}
    (h : noAdjBlank (a :: t) = true) (ha : a.isEmpty = true) :
    t.head? ≠ some [] := by
  cases t with
  | nil => simp
  | cons b t' =>
    rw [noAdjBlank] at h
    have h1 := (Bool.and_eq_true _ _).mp h |>.1
    intro hb
    have : b = [] := by simpa using hb
    subst this
    simp [ha] at h1

theorem noAdjBlank_cons_of {a : List Char} {t : List (List Char)}
    (ht : noAdjBlank t = true)
    (hcond : a.isEmpty = false ∨ t.head? ≠ some []) :
    noAdjBlank (a :: t) = true := by
  cases t with
  | nil => rfl
  | cons b t' =>
    rw [noAdjBlank, Bool.and_eq_true]
    refine ⟨?_, ht⟩
    rcases hcond with h | h
    · simp [h]
    · have hb : b ≠ [] := fun hb => h (by simp [hb])
      have : b.isEmpty = false := by
        cases b with
        | nil => exact absurd rfl hb
        | cons x xs => rfl
      simp [this]

theorem noAdjBlank_dropWhile (p : List Char → Bool) (ls : List (List Char))
    (h : noAdjBlank ls = true) : noAdjBlank (ls.dropWhile p) = true := by
  induction ls with
  | nil => simpa using h
  | cons a t ih =>
    rw [List.dropWhile_cons]
    by_cases hp : p a = true
    · rw [if_pos hp]
      exact ih (noAdjBlank_of_cons h)
    · rw [if_neg hp]
      exact h

theorem head?_dropWhile_not {α : Type} (p : α → Bool) (ls : List α) (a : α)
    (h : (ls.dropWhile p).head? = some a) : p a = false := by
  induction ls with
  | nil => simp at h
  | cons x t ih =>
    rw [List.dropWhile_cons] at h
    by_cases hp : p x = true
    · rw [if_pos hp] at h
      exact ih h
    · rw [if_neg hp] at h
      simp at h
      subst h
      exact Bool.eq_false_iff.mpr hp

theorem noAdjBlank_take (n : Nat) (ls : List (List Char))
    (h : noAdjBlank ls = true) : noAdjBlank (ls.take n) = true := by
  induction ls generalizing n with
  | nil => simp [List.take_nil]; cases n <;> rfl
  | cons a t ih =>
    cases n with
    | zero => rfl
    | succ n' =>
      rw [List.take_succ_cons]
      apply noAdjBlank_cons_of (ih n' (noAdjBlank_of_cons h))
      by_cases ha : a.isEmpty = true
      · right
        rw [List.head?_take]
        by_cases hn : n' = 0
        · simp [hn]
        · rw [if_neg hn]
          exact noAdjBlank_cons_head h ha
      · left
        exact Bool.eq_false_iff.mpr ha

theorem compactAux_entries (ls : List (List Char)) :
    ∀ b, ∀ l ∈ compactAux b ls,
      l = [] ∨ ∃ l0 ∈ ls, l = rstrip l0 ∧ (strip l0).isEmpty = false := by
  induction ls with
  | nil => intro b l hl; simp [compactAux] at hl
  | cons x t ih =>
    intro b l hl
    rw [compactAux] at hl
    by_cases hx : (strip x).isEmpty = true
    · rw [if_pos hx] at hl
      by_cases hb : b = true
      · subst hb
        simp only [if_pos rfl] at hl
        rcases ih true l hl with h | ⟨l0, hl0, he⟩
        · exact Or.inl h
        · exact Or.inr ⟨l0, List.mem_cons_of_mem x hl0, he⟩
      · have hb' : b = false := by cases b; rfl; exact absurd rfl hb
        subst hb'
        simp only [Bool.false_eq_true, if_false] at hl
        rcases List.mem_cons.mp hl with h | h
        · exact Or.inl h
        · rcases ih true l h with h' | ⟨l0, hl0, he⟩
          · exact Or.inl h'
          · exact Or.inr ⟨l0, List.mem_cons_of_mem x hl0, he⟩
    · rw [if_neg hx] at hl
      rcases List.mem_cons.mp hl with h | h
      · exact Or.inr ⟨x, List.mem_cons_self x t, h, Bool.eq_false_iff.mpr hx⟩
      · rcases ih false l h with h' | ⟨l0, hl0, he⟩
        · exact Or.inl h'
        · exact Or.inr ⟨l0, List.mem_cons_of_mem x hl0, he⟩

theorem compactAux_props (ls : List (List Char)) :
    (∀ b, noAdjBlank (compactAux b ls) = true) ∧
      (compactAux true ls).head? ≠ some [] := by
  induction ls with
  | nil => exact ⟨fun b => rfl, by simp [compactAux]⟩
  | cons x t ih =>
    by_cases hx : (strip x).isEmpty = true
    · constructor
      · intro b
        cases b with
        | true =>
          rw [compactAux, if_pos hx]
          simp only [if_pos rfl]
          exact ih.1 true
        | false =>
          rw [compactAux, if_pos hx]
          simp only [Bool.false_eq_true, if_false]
          exact noAdjBlank_cons_of (ih.1 true) (Or.inr ih.2)
      · rw [compactAux, if_pos hx]
        simp only [if_pos rfl]
        exact ih.2
    · have hr : rstrip x ≠ [] := rstrip_ne_nil_of_strip (by simp [hx])
      have hre : (rstrip x).isEmpty = false := by
        cases hrx : rstrip x with
        | nil => exact absurd hrx hr
        | cons a b => rfl
      constructor
      · intro b
        rw [compactAux, if_neg hx]
        exact noAdjBlank_cons_of (ih.1 false) (Or.inl hre)
      · rw [compactAux, if_neg hx]
        intro hh
        simp at hh
        exact hr hh

theorem trimEnd_isPrefixOf (p : List Char → Bool) (m : List (List Char)) :
    ((m.reverse.dropWhile p).reverse) <+: m := by
  obtain ⟨pre, hpre⟩ := List.dropWhile_suffix (l := m.reverse) p
  refine ⟨pre.reverse, ?_⟩
  have : (pre ++ m.reverse.dropWhile p).reverse = m.reverse.reverse := by
    rw [hpre]
  simpa [List.reverse_append] using this

theorem dropWhile_eq_self_of_head {α : Type} (p : α → Bool) (x : List α)
    (a : α) (hh : x.head? = some a) (hp : p a = false) :
    x.dropWhile p = x := by
  cases x with
  | nil => simp at hh
  | cons b t =>
    have : b = a := by simpa using hh
    subst this
    rw [List.dropWhile_cons, if_neg (by simp [hp])]

theorem compact_props (ls : List (List Char)) :
    (compact_blank_lines ls).head? ≠ some [] ∧
      (compact_blank_lines ls).getLast? ≠ some [] ∧
      noAdjBlank (compact_blank_lines ls) = true ∧
      ∀ l ∈ compact_blank_lines ls,
        l = [] ∨ ∃ l0 ∈ ls, l = rstrip l0 ∧ (strip l0).isEmpty = false := by
  have hA := compactAux_props ls
  set A := compactAux false ls with hAdef
  set M := A.dropWhile List.isEmpty with hMdef
  set X := (M.reverse.dropWhile List.isEmpty).reverse with hXdef
  have hcompact : compact_blank_lines ls = X := by
    rw [compact_blank_lines]
  have hMadj : noAdjBlank M = true := noAdjBlank_dropWhile _ _ (hA.1 false)
  obtain ⟨tl, htl⟩ : X <+: M := trimEnd_isPrefixOf _ M
  have htake : X = M.take X.length := by
    rw [← htl, List.take_left]
  refine ⟨?_, ?_, ?_, ?_⟩
  · rw [hcompact]
    intro hh
    obtain ⟨h0, t0, hX⟩ : ∃ h0 t0, X = h0 :: t0 := by
      cases hXc : X with
      | nil => rw [hXc] at hh; simp at hh
      | cons a b => exact ⟨a, b, rfl⟩
    rw [hX] at hh htl
    have h0nil : h0 = [] := by simpa using hh
    have hheadM : M.head? = some [] := by
      rw [← htl]
      simp [h0nil]
    have := head?_dropWhile_not List.isEmpty A [] hheadM
    simp at this
  · rw [hcompact, hXdef, List.getLast?_reverse]
    intro hh
    have := head?_dropWhile_not List.isEmpty M.reverse [] hh
    simp at this
  · rw [hcompact, htake]
    exact noAdjBlank_take _ _ hMadj
  · rw [hcompact]
    intro l hl
    have h1 : l ∈ M.reverse.dropWhile List.isEmpty := List.mem_reverse.mp hl
    have h2 : l ∈ M := List.mem_reverse.mp ((List.dropWhile_sublist _).mem h1)
    have h3 : l ∈ A := (List.dropWhile_sublist _).mem h2
    exact compactAux_entries ls false l h3

theorem compact_entry_fixed (ls : List (List Char)) :
    ∀ l ∈ compact_blank_lines ls,
      rstrip l = l ∧ ((strip l).isEmpty = true → l = []) := by
  intro l hl
  rcases (compact_props ls).2.2.2 l hl with rfl | ⟨l0, _, rfl, hne⟩
  · exact ⟨rfl, fun _ => rfl⟩
  · refine ⟨rstrip_idem l0, fun hs => ?_⟩
    rw [strip_rstrip] at hs
    rw [hs] at hne
    cases hne

theorem compactAux_fixed (c : List (List Char)) :
    ∀ b, (∀ l ∈ c, rstrip l = l ∧ ((strip l).isEmpty = true → l = [])) →
      noAdjBlank c = true → c.getLast? ≠ some [] →
      (b = true → c.head? ≠ some [] ∧ c ≠ []) →
      compactAux b (c ++ [[]]) = c ++ [[]] := by
  induction c with
  | nil =>
    intro b _ _ _ hb
    have hbf : b = false := by
      cases b
      · rfl
      · exact absurd rfl (hb rfl).2
    subst hbf
    rfl
  | cons l t ih =>
    intro b hent hadj hlast hb
    by_cases hl : (strip l).isEmpty = true
    · have hlnil : l = [] := (hent l (List.mem_cons_self l t)).2 hl
      subst hlnil
      have hbf : b = false := by
        cases b
        · rfl
        · exact absurd (show ([] :: t).head? = some [] from rfl) (hb rfl).1
      subst hbf
      have htne : t ≠ [] := by
        intro ht
        subst ht
        simp at hlast
      show compactAux false ([] :: (t ++ [[]])) = [] :: (t ++ [[]])
      rw [compactAux, if_pos hl]
      simp only [Bool.false_eq_true, if_false]
      congr 1
      apply ih true
      · exact fun x hx => hent x (List.mem_cons_of_mem _ hx)
      · exact noAdjBlank_of_cons hadj
      · obtain ⟨h, t', rfl⟩ := List.exists_cons_of_ne_nil htne
        rw [List.getLast?_cons_cons] at hlast
        exact hlast
      · intro _
        exact ⟨noAdjBlank_cons_head hadj rfl, htne⟩
    · have hrl : rstrip l = l := (hent l (List.mem_cons_self l t)).1
      show compactAux b (l :: (t ++ [[]])) = l :: (t ++ [[]])
      rw [compactAux, if_neg hl, hrl]
      congr 1
      apply ih false
      · exact fun x hx => hent x (List.mem_cons_of_mem _ hx)
      · exact noAdjBlank_of_cons hadj
      · cases t with
        | nil => simp
        | cons h t' =>
          rw [List.getLast?_cons_cons] at hlast
          exact hlast
      · intro h
        cases h

theorem compact_fixed (c : List (List Char)) (hc : c ≠ [])
    (hhead : c.head? ≠ some []) (hlast : c.getLast? ≠ some [])
    (hadj : noAdjBlank c = true)
    (hent : ∀ l ∈ c, rstrip l = l ∧ ((strip l).isEmpty = true → l = [])) :
    compact_blank_lines (c ++ [[]]) = c := by
  rw [compact_blank_lines]
  rw [compactAux_fixed c false hent hadj hlast (by intro h; cases h)]
  obtain ⟨h0, t0, rfl⟩ := List.exists_cons_of_ne_nil hc
  have hh0 : h0 ≠ [] := by
    intro h
    exact hhead (by simp [h])
  have hh0e : h0.isEmpty = false := by
    cases h0
    · exact absurd rfl hh0
    · rfl
  rw [List.cons_append, List.dropWhile_cons, if_neg (by simp [hh0e]), ← List.cons_append]
  have hrev : ((h0 :: t0) ++ [[]]).reverse = [] :: (h0 :: t0).reverse := by
    simp
  rw [hrev, List.dropWhile_cons, if_pos (by simp)]
  have hrevne : (h0 :: t0).reverse ≠ [] := by simp
  obtain ⟨a, hah⟩ : ∃ a, (h0 :: t0).reverse.head? = some a := by
    cases hr : (h0 :: t0).reverse with
    | nil => exact absurd hr hrevne
    | cons x xs => exact ⟨x, by simp [hr]⟩
  have hane : a ≠ [] := by
    rw [List.head?_reverse] at hah
    intro h
    subst h
    exact hlast hah
  have hae : a.isEmpty = false := by
    cases a
    · exact absurd rfl hane
    · rfl
  rw [dropWhile_eq_self_of_head List.isEmpty _ a hah (by simp [hae])]
  simp

/-! ### Provenance of the output lines -/

theorem keepBodyLine_eq_some {a x : List Char} (h : keepBodyLine a = some x) :
    x = rstrip a := by
  rw [keepBodyLine] at h
  by_cases h1 : is_badge_or_banner_line (strip a) = true
  · simp [h1] at h
  · rw [if_neg h1] at h
    by_cases h2 : matchUsage (strip a) = true
    · simp [h2] at h
    · rw [if_neg h2] at h
      exact (Option.some_inj.mp h).symm

theorem mem_body_lines (lines : List (List Char)) {l : List Char}
    (h : l ∈ body_lines_of lines) : l ∈ lines := by
  rw [body_lines_of] at h
  exact List.mem_of_mem_drop (List.mem_of_mem_take h)

theorem filtered_body_entries (lines : List (List Char)) :
    ∀ l ∈ filtered_body_of lines, ∃ l0 ∈ lines, l = rstrip l0 := by
  intro l hl
  rw [filtered_body_of] at hl
  obtain ⟨a, ha, hk⟩ := List.mem_filterMap.mp hl
  exact ⟨a, mem_body_lines lines ha, keepBodyLine_eq_some hk⟩

theorem title_block_entries (lines : List (List Char)) :
    ∀ l ∈ title_block_of lines, l = [] ∨ ∃ l0 ∈ lines, l = rstrip l0 := by
  intro l hl
  rw [title_block_of] at hl
  cases hft : find_first_title lines with
  | none =>
    rw [hft] at hl
    simp at hl
  | some t =>
    rw [hft] at hl
    have ht := firstIdx_eq_some isTitleLine lines t [] hft
    have htmem : lines.getD t [] ∈ lines := getD_mem lines t [] ht.1
    simp only at hl
    cases hpj : firstIdx paraQualifies ((lines.drop (t + 1)).take 11) with
    | none =>
      rw [hpj] at hl
      rcases List.mem_singleton.mp hl with rfl
      exact Or.inr ⟨lines.getD t [], htmem, rfl⟩
    | some j =>
      rw [hpj] at hl
      have hj := firstIdx_eq_some paraQualifies _ j [] hpj
      have hjmem : ((lines.drop (t + 1)).take 11).getD j [] ∈ lines :=
        List.mem_of_mem_drop (List.mem_of_mem_take (getD_mem _ j [] hj.1))
      rcases List.mem_cons.mp hl with h1 | h1
      · exact Or.inr ⟨lines.getD t [], htmem, h1⟩
      rcases List.mem_cons.mp h1 with h2 | h2
      · exact Or.inl h2
      rcases List.mem_singleton.mp h2 with rfl
      exact Or.inr ⟨_, hjmem, rfl⟩

theorem output_lines_entries (lines : List (List Char)) :
    ∀ l ∈ output_lines_of lines, l = [] ∨ ∃ l0 ∈ lines, l = rstrip l0 := by
  intro l hl
  simp only [output_lines_of] at hl
  rcases (compact_props _).2.2.2 l hl with rfl | ⟨l1, hl1, rfl, _⟩
  · exact Or.inl rfl
  by_cases htb : (title_block_of lines).isEmpty = true
  · rw [if_pos htb] at hl1
    obtain ⟨l0, hl0, rfl⟩ := filtered_body_entries lines l1 hl1
    exact Or.inr ⟨l0, hl0, rstrip_idem l0⟩
  · rw [if_neg htb] at hl1
    rcases List.mem_append.mp hl1 with h1 | h1
    rcases List.mem_append.mp h1 with h2 | h2
    · rcases title_block_entries lines l1 h2 with rfl | ⟨l0, hl0, rfl⟩
      · exact Or.inl rfl
      · exact Or.inr ⟨l0, hl0, rstrip_idem l0⟩
    · rcases List.mem_singleton.mp h2 with rfl
      exact Or.inl rfl
    · obtain ⟨l0, hl0, rfl⟩ := filtered_body_entries lines l1 h1
      exact Or.inr ⟨l0, hl0, rstrip_idem l0⟩

theorem output_lines_no_nl (u : List Char) :
    ∀ l ∈ output_lines_of (splitNL u), '\n' ∉ l := by
  intro l hl
  rcases output_lines_entries _ l hl with rfl | ⟨l0, hl0, rfl⟩
  · simp
  · exact not_mem_rstrip (splitNL_no_nl u l0 hl0)

theorem clean_readme_eq (s : List Char) :
    clean_readme s =
      joinNL (output_lines_of (splitNL (normalizeNewlines s))) ++ ['\n'] := rfl

theorem clean_no_cr (s : List Char) : '\r' ∉ clean_readme s := by
  intro h
  rw [clean_readme_eq] at h
  rcases List.mem_append.mp h with h1 | h1
  · rcases mem_joinNL h1 with h2 | ⟨l, hl, hcl⟩
    · exact absurd h2 (by decide)
    · rcases output_lines_entries _ l hl with rfl | ⟨l0, hl0, rfl⟩
      · simp at hcl
      · exact normalizeNewlines_no_cr s
          (splitNL_chars _ l0 hl0 '\r' (mem_rstrip hcl))
  · simp at h1

theorem splitNL_clean (s : List Char)
    (h : output_lines_of (splitNL (normalizeNewlines s)) ≠ []) :
    splitNL (clean_readme s) =
      output_lines_of (splitNL (normalizeNewlines s)) ++ [[]] := by
  rw [clean_readme_eq]
  exact splitNL_join_roundtrip _ h (output_lines_no_nl _)

theorem clean_empty_case (s : List Char)
    (h : output_lines_of (splitNL (normalizeNewlines s)) = []) :
    clean_readme s = ['\n'] := by
  rw [clean_readme_eq, h]
  rfl

theorem output_lines_props (lines : List (List Char)) :
    (output_lines_of lines).head? ≠ some [] ∧
      (output_lines_of lines).getLast? ≠ some [] ∧
      noAdjBlank (output_lines_of lines) = true := by
  simp only [output_lines_of]
  exact ⟨(compact_props _).1, (compact_props _).2.1, (compact_props _).2.2.1⟩

/-- C3: for every input string, the output of `clean_readme` ends with
exactly one trailing line break (it has `"\n"` as a suffix but not
`"\n\n"`), its line decomposition contains no two consecutive blank lines,
and — except for the empty document, which cleans to the single line break
`"\n"` — the line decomposition (before the final break) neither starts nor
ends with a blank line. -/
theorem C3_output_contract (s : List Char) :
    (['\n'] <:+ clean_readme s) ∧
      ¬(['\n', '\n'] <:+ clean_readme s) ∧
      noAdjBlank (splitNL (clean_readme s)).dropLast = true ∧
      (clean_readme s = ['\n'] ∨
        ((splitNL (clean_readme s)).dropLast.head? ≠ some [] ∧
         (splitNL (clean_readme s)).dropLast.getLast? ≠ some [])) := by
  by_cases h : output_lines_of (splitNL (normalizeNewlines s)) = []
  · rw [clean_empty_case s h]
    refine ⟨List.suffix_refl _, by decide, ?_, Or.inl rfl⟩
    decide
  · have hsplit := splitNL_clean s h
    have hprops := output_lines_props (splitNL (normalizeNewlines s))
    refine ⟨⟨joinNL _, (clean_readme_eq s).symm⟩, ?_, ?_, Or.inr ?_⟩
    · intro ⟨p, hp⟩
      rw [clean_readme_eq] at hp
      have hcancel : joinNL (output_lines_of (splitNL (normalizeNewlines s))) =
          p ++ ['\n'] :=
        List.append_cancel_right (show _ ++ ['\n'] = (p ++ ['\n']) ++ ['\n'] from by
          rw [← hp]
          simp)
      obtain ⟨L, hL⟩ : ∃ L,
          (output_lines_of (splitNL (normalizeNewlines s))).getLast? = some L := by
        cases hg : (output_lines_of (splitNL (normalizeNewlines s))).getLast? with
        | none => exact absurd (List.getLast?_eq_none_iff.mp hg) h
        | some L => exact ⟨L, rfl⟩
      have hLne : L ≠ [] := by
        intro hnil
        exact hprops.2.1 (hnil ▸ hL)
      have hLnl : '\n' ∉ L :=
        output_lines_no_nl _ L (List.mem_of_mem_getLast? hL)
      have hjoin := joinNL_getLast? _ L hL hLne
      rw [hcancel] at hjoin
      have : ('\n' : Char) ∈ L := by
        have hlast : (p ++ ['\n']).getLast? = some '\n' := by simp
        rw [hjoin] at hlast
        exact List.mem_of_mem_getLast? hlast
      exact hLnl this
    · rw [hsplit, List.dropLast_concat]
      exact hprops.2.2
    · rw [hsplit, List.dropLast_concat]
      exact ⟨hprops.1, hprops.2.1⟩

/-- C9: cleaning is invariant under the input's line-ending convention:
running `clean_readme` on the CRLF/CR-normalized form of `s` (every CRLF and
every lone CR replaced by LF, as the script's entry normalization does)
yields exactly `clean_readme s`. -/
theorem C9_newline_invariance (s : List Char) :
    clean_readme (normalizeNewlines s) = clean_readme s := by
  rw [clean_readme_eq, clean_readme_eq, normalizeNewlines_idem]

/-- C10: content provenance — every line of the cleaned output is either
empty or the right-trimmed form of some line of the newline-normalized
input; `clean_readme` never fabricates text. -/
theorem C10_provenance (s : List Char) (l : List Char)
    (h : l ∈ splitNL (clean_readme s)) :
    l = [] ∨ ∃ l0 ∈ splitNL (normalizeNewlines s), l = rstrip l0 := by
  by_cases hout : output_lines_of (splitNL (normalizeNewlines s)) = []
  · rw [clean_empty_case s hout] at h
    have : l ∈ [([] : List Char), []] := h
    rcases List.mem_cons.mp this with rfl | h2
    · exact Or.inl rfl
    · rcases List.mem_singleton.mp h2 with rfl
      exact Or.inl rfl
  · rw [splitNL_clean s hout] at h
    rcases List.mem_append.mp h with h1 | h1
    · exact output_lines_entries _ l h1
    · rcases List.mem_singleton.mp h1 with rfl
      exact Or.inl rfl

theorem C10_provenance_witness :
    "desc".data ∈ splitNL (clean_readme "# T\ndesc  \nrest".data) ∧
      ("desc".data = [] ∨ ∃ l0 ∈ splitNL (normalizeNewlines "# T\ndesc  \nrest".data),
        "desc".data = rstrip l0) :=
  ⟨by decide, C10_provenance "# T\ndesc  \nrest".data "desc".data (by decide)⟩

/-- C4: `clean_readme` is total by construction; on an input whose lines
contain no level-1 title (`find_first_title` returns `none`) it returns the
compacted filtered body with no title block prepended, and the empty input
yields the single trailing newline. -/
theorem C4_no_title_fallback (s : List Char)
    (h : find_first_title (splitNL (normalizeNewlines s)) = none) :
    clean_readme s =
      joinNL (compact_blank_lines
        (filtered_body_of (splitNL (normalizeNewlines s)))) ++ ['\n'] ∧
      clean_readme [] = ['\n'] := by
  constructor
  · rw [clean_readme_eq]
    congr 2
    simp only [output_lines_of, title_block_of, h]
    rfl
  · rfl

theorem C4_no_title_fallback_witness :
    find_first_title (splitNL (normalizeNewlines "hello\nworld".data)) = none ∧
      clean_readme "hello\nworld".data =
        joinNL (compact_blank_lines
          (filtered_body_of (splitNL (normalizeNewlines "hello\nworld".data)))) ++ ['\n'] :=
  ⟨by decide, (C4_no_title_fallback "hello\nworld".data (by decide)).1⟩

theorem getD_drop (lines : List (List Char)) (start j : Nat) :
    (lines.drop start).getD j [] = lines.getD (start + j) [] := by
  rw [List.getD_eq_getElem?_getD, List.getD_eq_getElem?_getD, List.getElem?_drop]

/-- C5: the content-start index follows the priority order of
`find_content_start`, first match wins: one past the first `## usage` line;
else the first `### ` line; else one past the title index when given; else
zero. -/
theorem C5_content_start_priority (lines : List (List Char)) (ti : Option Nat) :
    (∃ i, i < lines.length ∧ isUsageLine (lines.getD i []) = true ∧
        (∀ j, j < i → isUsageLine (lines.getD j []) = false) ∧
        find_content_start lines ti = i + 1) ∨
      ((∀ l ∈ lines, isUsageLine l = false) ∧
        ((∃ i, i < lines.length ∧ isH3Line (lines.getD i []) = true ∧
            (∀ j, j < i → isH3Line (lines.getD j []) = false) ∧
            find_content_start lines ti = i) ∨
          ((∀ l ∈ lines, isH3Line l = false) ∧
            ((∃ t, ti = some t ∧ find_content_start lines ti = t + 1) ∨
              (ti = none ∧ find_content_start lines ti = 0))))) := by
  cases hu : firstIdx isUsageLine lines with
  | some i =>
    obtain ⟨hlen, hp, hmin⟩ := firstIdx_eq_some _ _ i [] hu
    left
    exact ⟨i, hlen, hp, hmin, by simp only [find_content_start, hu]⟩
  | none =>
    right
    refine ⟨(firstIdx_eq_none_iff _ _).mp hu, ?_⟩
    cases h3 : firstIdx isH3Line lines with
    | some i =>
      obtain ⟨hlen, hp, hmin⟩ := firstIdx_eq_some _ _ i [] h3
      left
      exact ⟨i, hlen, hp, hmin, by simp only [find_content_start, hu, h3]⟩
    | none =>
      right
      refine ⟨(firstIdx_eq_none_iff _ _).mp h3, ?_⟩
      cases ti with
      | some t =>
        left
        exact ⟨t, rfl, by simp only [find_content_start, hu, h3]⟩
      | none =>
        right
        exact ⟨rfl, by simp only [find_content_start, hu, h3]⟩

/-- C6: the content-end index is the smallest index at or after `start`
whose line is a footer-stop (a heading of level at least two whose
normalized title belongs to `FOOTER_TITLES`), or the document length when no
such line exists; in particular `"## Installation"` is not a footer-stop, so
it never truncates content. -/
theorem C6_content_end (lines : List (List Char)) (start : Nat) :
    ((∃ i, start ≤ i ∧ i < lines.length ∧ isFooterStop (lines.getD i []) = true ∧
        (∀ j, start ≤ j → j < i → isFooterStop (lines.getD j []) = false) ∧
        find_content_end lines start = i) ∨
      ((∀ i, start ≤ i → i < lines.length →
          isFooterStop (lines.getD i []) = false) ∧
        find_content_end lines start = lines.length)) ∧
      isFooterStop "## Installation".data = false := by
  refine ⟨?_, by decide⟩
  cases hf : firstIdx isFooterStop (lines.drop start) with
  | some j =>
    obtain ⟨hlen, hp, hmin⟩ := firstIdx_eq_some _ _ j [] hf
    rw [List.length_drop] at hlen
    left
    refine ⟨start + j, Nat.le_add_right _ _, by omega, ?_, ?_, ?_⟩
    · rw [← getD_drop]
      exact hp
    · intro k hk1 hk2
      have hk3 : k - start < j := by omega
      have := hmin (k - start) hk3
      rw [getD_drop] at this
      have hkeq : start + (k - start) = k := by omega
      rw [hkeq] at this
      exact this
    · simp only [find_content_end, hf]
  | none =>
    right
    have hall := (firstIdx_eq_none_iff _ _).mp hf
    refine ⟨?_, by simp only [find_content_end, hf]⟩
    intro i hi1 hi2
    have hmem : (lines.drop start).getD (i - start) [] ∈ lines.drop start := by
      apply getD_mem
      rw [List.length_drop]
      omega
    have := hall _ hmem
    rw [getD_drop] at this
    have hkeq : start + (i - start) = i := by omega
    rw [hkeq] at this
    exact this

theorem getD_take (l : List (List Char)) (n m : Nat) (h : m < n) :
    (l.take n).getD m [] = l.getD m [] := by
  rw [List.getD_eq_getElem?_getD, List.getD_eq_getElem?_getD, List.getElem?_take,
    if_pos h]

theorem window_getD (lines : List (List Char)) (t j : Nat) (hj : j < 11) :
    ((lines.drop (t + 1)).take 11).getD j [] = lines.getD (t + 1 + j) [] := by
  rw [getD_take _ _ _ hj, getD_drop]

/-- C7: when a title line exists at index `t`, the title block is that line
right-trimmed plus at most one further line chosen among the 11 lines
immediately after the title: the first line there that is not blank, not a
heading and not a badge/banner is appended after one blank entry, and a
qualifying line outside that 11-line window is never captured. -/
theorem C7_title_block (lines : List (List Char)) (t : Nat)
    (h : find_first_title lines = some t) :
    (title_block_of lines = [rstrip (lines.getD t [])] ∧
        ∀ i, t < i → i ≤ t + 11 → i < lines.length →
          paraQualifies (lines.getD i []) = false) ∨
      (∃ i, t < i ∧ i ≤ t + 11 ∧ i < lines.length ∧
        paraQualifies (lines.getD i []) = true ∧
        (∀ k, t < k → k < i → paraQualifies (lines.getD k []) = false) ∧
        title_block_of lines =
          [rstrip (lines.getD t []), [], rstrip (lines.getD i [])]) := by
  cases hw : firstIdx paraQualifies ((lines.drop (t + 1)).take 11) with
  | none =>
    left
    constructor
    · simp only [title_block_of, h, hw]
    · intro i hi1 hi2 hi3
      have hall := (firstIdx_eq_none_iff _ _).mp hw
      have hjlt : i - (t + 1) < 11 := by omega
      have hjlen : i - (t + 1) < ((lines.drop (t + 1)).take 11).length := by
        rw [List.length_take, List.length_drop]
        rw [lt_inf_iff]
        omega
      have hmem := getD_mem _ (i - (t + 1)) [] hjlen
      have := hall _ hmem
      rw [window_getD lines t _ hjlt] at this
      have hkeq : t + 1 + (i - (t + 1)) = i := by omega
      rw [hkeq] at this
      exact this
  | some j =>
    right
    obtain ⟨hlen, hp, hmin⟩ := firstIdx_eq_some _ _ j [] hw
    rw [List.length_take, List.length_drop, lt_inf_iff] at hlen
    refine ⟨t + 1 + j, by omega, by omega, by omega, ?_, ?_, ?_⟩
    · rw [← window_getD lines t j hlen.1]
      exact hp
    · intro k hk1 hk2
      have hklt : k - (t + 1) < j := by omega
      have := hmin (k - (t + 1)) hklt
      rw [window_getD lines t _ (by omega)] at this
      have hkeq : t + 1 + (k - (t + 1)) = k := by omega
      rw [hkeq] at this
      exact this
    · simp only [title_block_of, h, hw]
      rw [window_getD lines t j hlen.1]

theorem C7_title_block_witness :
    find_first_title (splitNL "# T\n\ndesc\nrest".data) = some 0 ∧
      ((title_block_of (splitNL "# T\n\ndesc\nrest".data) =
          [rstrip ((splitNL "# T\n\ndesc\nrest".data).getD 0 [])] ∧
        ∀ i, 0 < i → i ≤ 0 + 11 → i < (splitNL "# T\n\ndesc\nrest".data).length →
          paraQualifies ((splitNL "# T\n\ndesc\nrest".data).getD i []) = false) ∨
      (∃ i, 0 < i ∧ i ≤ 0 + 11 ∧ i < (splitNL "# T\n\ndesc\nrest".data).length ∧
        paraQualifies ((splitNL "# T\n\ndesc\nrest".data).getD i []) = true ∧
        (∀ k, 0 < k → k < i →
          paraQualifies ((splitNL "# T\n\ndesc\nrest".data).getD k []) = false) ∧
        title_block_of (splitNL "# T\n\ndesc\nrest".data) =
          [rstrip ((splitNL "# T\n\ndesc\nrest".data).getD 0 []), [],
            rstrip ((splitNL "# T\n\ndesc\nrest".data).getD i [])])) :=
  ⟨by decide, C7_title_block (splitNL "# T\n\ndesc\nrest".data) 0 (by decide)⟩

theorem badge_strip_congr (x y : List Char) (h : strip x = strip y) :
    is_badge_or_banner_line x = is_badge_or_banner_line y := by
  rw [is_badge_or_banner_line, is_badge_or_banner_line, h]

theorem filterMap_id_of {α : Type} (f : α → Option α) (ls : List α)
    (h : ∀ l ∈ ls, f l = some l) : ls.filterMap f = ls := by
  induction ls with
  | nil => rfl
  | cons a t ih =>
    rw [List.filterMap_cons, h a (List.mem_cons_self a t),
      ih (fun l hl => h l (List.mem_cons_of_mem a hl))]

/-- C8 (amended): every line of the filtered body built over the retained
range [content-start, content-end) is classified neither as badge/banner nor
as a `## usage` heading and is right-trimmed — badge and usage lines of the
range are dropped from the body (a badge-classified line can reach the
output only through the title block, as the counterexample shows). -/
theorem C8_body_filter_amended (lines : List (List Char)) (l : List Char)
    (h : l ∈ filtered_body_of lines) :
    is_badge_or_banner_line l = false ∧ matchUsage (strip l) = false ∧
      rstrip l = l := by
  rw [filtered_body_of] at h
  obtain ⟨a, ha, hk⟩ := List.mem_filterMap.mp h
  rw [keepBodyLine] at hk
  by_cases h1 : is_badge_or_banner_line (strip a) = true
  · simp [h1] at hk
  · rw [if_neg h1] at hk
    by_cases h2 : matchUsage (strip a) = true
    · simp [h2] at hk
    · rw [if_neg h2] at hk
      have hl : l = rstrip a := (Option.some_inj.mp hk).symm
      subst hl
      refine ⟨?_, ?_, rstrip_idem a⟩
      · rw [badge_strip_congr (rstrip a) (strip a) (by rw [strip_rstrip, strip_strip])]
        exact Bool.eq_false_iff.mpr h1
      · rw [strip_rstrip]
        exact Bool.eq_false_iff.mpr h2

theorem C8_body_filter_amended_witness :
    "kept line".data ∈ filtered_body_of (splitNL "kept line\nx".data) ∧
      (is_badge_or_banner_line "kept line".data = false ∧
        matchUsage (strip "kept line".data) = false ∧
        rstrip "kept line".data = "kept line".data) :=
  ⟨by decide, C8_body_filter_amended (splitNL "kept line\nx".data) "kept line".data
    (by decide)⟩

/-- C8 (counterexample): in the document `"## Usage\n# intro shields.io\nbody"`,
line 1 lies inside the retained range [content-start, content-end) and is
classified as a badge/banner line, yet it appears verbatim as a line of the
cleaned output (it is captured as the title line), refuting the claim that
such a line never appears in the output. -/
theorem C8_counterexample :
    is_badge_or_banner_line "# intro shields.io".data = true ∧
      (splitNL (normalizeNewlines
        "## Usage\n# intro shields.io\nbody".data)).getD 1 [] =
        "# intro shields.io".data ∧
      (content_bounds_of (splitNL (normalizeNewlines
        "## Usage\n# intro shields.io\nbody".data))).1 ≤ 1 ∧
      1 < (content_bounds_of (splitNL (normalizeNewlines
        "## Usage\n# intro shields.io\nbody".data))).2 ∧
      "# intro shields.io".data ∈
        splitNL (clean_readme "## Usage\n# intro shields.io\nbody".data) := by
  decide

/-- C2: an input whose level-1 title is followed (within the lookahead
window) by a qualifying description line, with no `## usage` heading and no
level-3 heading anywhere, yields an output containing that description line
twice — once from the title block and once from the body, whose window
starts right after the title line. -/
theorem C2_description_duplicated :
    find_first_title (splitNL (normalizeNewlines
      "# Title\n\nA description.\n\nMore text".data)) = some 0 ∧
      (splitNL (normalizeNewlines
        "# Title\n\nA description.\n\nMore text".data)).getD 2 [] =
        "A description.".data ∧
      paraQualifies "A description.".data = true ∧
      (∀ l ∈ splitNL (normalizeNewlines
          "# Title\n\nA description.\n\nMore text".data),
        isUsageLine l = false ∧ isH3Line l = false) ∧
      (splitNL (clean_readme
        "# Title\n\nA description.\n\nMore text".data)).count
          "A description.".data = 2 := by
  decide

/-- C1 (counterexample): re-cleaning an already-cleaned document is not a
no-op even without badge, `## usage` or footer lines.  First instance: the
output of cleaning `"# T\ndesc\nrest"` has no badge, usage or footer lines,
yet cleaning it again duplicates the description once more.  Second
instance: the output of cleaning `"## Usage\nintro\n### Ex\ncode"` has no
badge, usage or footer lines, yet cleaning it again drops the lines before
its `### ` heading. -/
theorem C1_counterexample :
    ((∀ l ∈ splitNL (clean_readme "# T\ndesc\nrest".data),
        is_badge_or_banner_line l = false ∧ isUsageLine l = false ∧
          isFooterStop l = false) ∧
      clean_readme (clean_readme "# T\ndesc\nrest".data) ≠
        clean_readme "# T\ndesc\nrest".data) ∧
    ((∀ l ∈ splitNL (clean_readme "## Usage\nintro\n### Ex\ncode".data),
        is_badge_or_banner_line l = false ∧ isUsageLine l = false ∧
          isFooterStop l = false) ∧
      clean_readme (clean_readme "## Usage\nintro\n### Ex\ncode".data) ≠
        clean_readme "## Usage\nintro\n### Ex\ncode".data) := by
  decide

/-- C1 (amended): cleaning is a no-op on every already-cleaned document that
has no badge/banner lines, no `## usage` heading, no footer headings, and —
as the counterexample forces — also no level-1 title line and no level-3
heading line (a title re-captures its paragraph into the body window, and a
`### ` line restarts the content window, so either one can change the
document on re-cleaning). -/
theorem C1_idempotence_amended (y : List Char)
    (hno : ∀ l ∈ splitNL (clean_readme y),
      is_badge_or_banner_line l = false ∧ isUsageLine l = false ∧
        isFooterStop l = false ∧ isTitleLine l = false ∧ isH3Line l = false) :
    clean_readme (clean_readme y) = clean_readme y := by
  by_cases hcE : output_lines_of (splitNL (normalizeNewlines y)) = []
  · rw [clean_empty_case y hcE]
    decide
  · set c := output_lines_of (splitNL (normalizeNewlines y)) with hc
    have hx : splitNL (clean_readme y) = c ++ [[]] := splitNL_clean y hcE
    have hnorm : normalizeNewlines (clean_readme y) = clean_readme y :=
      normalizeNewlines_fixed _ (clean_no_cr y)
    rw [hx] at hno
    have htitle : find_first_title (c ++ [[]]) = none :=
      firstIdx_eq_none_of _ _ (fun l hl => (hno l hl).2.2.2.1)
    have husage : firstIdx isUsageLine (c ++ [[]]) = none :=
      firstIdx_eq_none_of _ _ (fun l hl => (hno l hl).2.1)
    have hh3 : firstIdx isH3Line (c ++ [[]]) = none :=
      firstIdx_eq_none_of _ _ (fun l hl => (hno l hl).2.2.2.2)
    have hfoot : firstIdx isFooterStop ((c ++ [[]]).drop 0) = none := by
      rw [List.drop_zero]
      exact firstIdx_eq_none_of _ _ (fun l hl => (hno l hl).2.2.1)
    have hstart : find_content_start (c ++ [[]]) (find_first_title (c ++ [[]])) = 0 := by
      rw [htitle]
      simp only [find_content_start, husage, hh3]
    have hend : find_content_end (c ++ [[]]) 0 = (c ++ [[]]).length := by
      simp only [find_content_end, hfoot]
    have hbounds : content_bounds_of (c ++ [[]]) = (0, (c ++ [[]]).length) := by
      simp only [content_bounds_of]
      rw [hstart, hend]
    have hbody : body_lines_of (c ++ [[]]) = c ++ [[]] := by
      simp only [body_lines_of, hbounds]
      rw [List.drop_zero, Nat.sub_zero, List.take_length]
    have hCent : ∀ l ∈ c, rstrip l = l ∧ ((strip l).isEmpty = true → l = []) := by
      have hcc : c = compact_blank_lines
          (if (title_block_of (splitNL (normalizeNewlines y))).isEmpty then
            filtered_body_of (splitNL (normalizeNewlines y))
          else title_block_of (splitNL (normalizeNewlines y)) ++ [[]] ++
            filtered_body_of (splitNL (normalizeNewlines y))) := by
        rw [hc]
        simp only [output_lines_of]
      intro l hl
      rw [hcc] at hl
      exact compact_entry_fixed _ l hl
    have hkeep : ∀ l ∈ c ++ [[]], keepBodyLine l = some l := by
      intro l hl
      have hbadge : is_badge_or_banner_line (strip l) = false := by
        rw [badge_strip_congr (strip l) l (strip_strip l)]
        exact (hno l hl).1
      have husagel : matchUsage (strip l) = false := (hno l hl).2.1
      have hfixl : rstrip l = l := by
        rcases List.mem_append.mp hl with h1 | h1
        · exact (hCent l h1).1
        · rcases List.mem_singleton.mp h1 with rfl
          rfl
      rw [keepBodyLine, if_neg (by simp [hbadge]), if_neg (by simp [husagel]), hfixl]
    have hfiltered : filtered_body_of (c ++ [[]]) = c ++ [[]] := by
      rw [filtered_body_of, hbody]
      exact filterMap_id_of _ _ hkeep
    have htb : title_block_of (c ++ [[]]) = [] := by
      simp only [title_block_of, htitle]
    have hout : output_lines_of (c ++ [[]]) = compact_blank_lines (c ++ [[]]) := by
      simp only [output_lines_of, htb, hfiltered]
      rfl
    have hprops := output_lines_props (splitNL (normalizeNewlines y))
    rw [← hc] at hprops
    have hcompact : compact_blank_lines (c ++ [[]]) = c :=
      compact_fixed c hcE hprops.1 hprops.2.1 hprops.2.2 hCent
    rw [clean_readme_eq (clean_readme y), hnorm, hx, hout, hcompact,
      clean_readme_eq y, ← hc]

theorem C1_idempotence_amended_witness :
    (∀ l ∈ splitNL (clean_readme "plain text\n\nmore text".data),
      is_badge_or_banner_line l = false ∧ isUsageLine l = false ∧
        isFooterStop l = false ∧ isTitleLine l = false ∧ isH3Line l = false) ∧
      clean_readme (clean_readme "plain text\n\nmore text".data) =
        clean_readme "plain text\n\nmore text".data :=
  ⟨by decide, C1_idempotence_amended "plain text\n\nmore text".data (by decide)⟩
